import Mathlib

/-!
# penn-shredder: a shallow embedding of `Project1/penn-shredder.c`

The C program is a small interactive shell.  Its functions are embedded as
pure Lean functions:

* a heap block is a list of byte values (`Buf`); every read and write is
  bounds checked and an access outside the block is reported as a `Fault`;
* the operating system is an oracle (`Env`) that fixes the return value of
  each system call; the embedded functions return the sequence of calls
  they issue (`Sys`) together with the way control leaves them (`Outcome`);
* the global `childPid` is passed in and returned explicitly.
-/

namespace PennShredder

/-! ## Constants -/

/-- The macro `INPUT_SIZE`. -/
def INPUT_SIZE : Nat := 1024

/-- The libc value of `EXIT_FAILURE`. -/
def EXIT_FAILURE : Int := 1

/-- The character `'\0'`. -/
def NUL : Nat := 0

/-- The character `' '`. -/
def SPACE : Nat := 32

/-- The character `'\t'`. -/
def TAB : Nat := 9

/-- The character `'\n'`. -/
def NEWLINE : Nat := 10

/-! ## Memory -/

/-- An access outside a block, or a string with no terminator in its block. -/
inductive Fault where
  | oobRead (index : Nat)
  | oobWrite (index : Nat)
  | unterminated
  deriving DecidableEq, Repr

/-- The result of a computation on memory: a value, or the fault that
stopped it. -/
inductive Mem (α : Type) where
  | ok (a : α)
  | fault (f : Fault)
  deriving DecidableEq, Repr

/-- A block of `char`s, one list element per byte. -/
abbrev Buf := List Nat

/-- The read `s[i]`. -/
def rd (s : Buf) (i : Nat) : Mem Nat :=
  match s[i]? with
  | some c => .ok c
  | none => .fault (.oobRead i)

/-- The write `s[i] = v`. -/
def wr (s : Buf) (i : Nat) (v : Nat) : Mem Buf :=
  if i < s.length then .ok (s.set i v) else .fault (.oobWrite i)

/-- The library function `strlen`: the number of bytes before the first NUL. -/
def strlen : Buf → Mem Nat
  | [] => .fault .unterminated
  | c :: t =>
    if c = NUL then .ok 0
    else match strlen t with
      | .ok n => .ok (n + 1)
      | .fault e => .fault e

/-- The C string held in a block: the bytes before the first NUL. -/
def cstr : Buf → List Nat
  | [] => []
  | c :: t => if c = NUL then [] else c :: cstr t

/-! ## `trim` -/

/-- The first loop of `trim`, for a positive `i`:
`while (i > 0) { if (s[i] == ' ' || s[i] == '\t') i--; else break; }`.
The result is the value of `i` when the loop is left. -/
def trimBack (s : Buf) : Nat → Mem Nat
  | 0 => .ok 0
  | i + 1 =>
    match rd s (i + 1) with
    | .fault e => .fault e
    | .ok c => if c = SPACE ∨ c = TAB then trimBack s i else .ok (i + 1)

/-- The second loop of `trim`: `while (s[count] == ' ') count++;`, run over
the bytes from index `count` on.  The block is not written in this loop. -/
def trimCount : List Nat → Nat → Mem Nat
  | [], count => .fault (.oobRead count)
  | c :: t, count => if c = SPACE then trimCount t (count + 1) else .ok count

/-- The third loop of `trim` with its final write:
`for (; s[x + count] != '\0'; x++) s[x] = s[count + x];  s[x] = '\0';`.
Every iteration reads one index further, so `s.length + 1` units of fuel
are never used up: the read leaves the block first. -/
def trimShift (count : Nat) : Nat → Buf → Nat → Mem Buf
  | 0, _, x => .fault (.oobRead (x + count))
  | fuel + 1, s, x =>
    match rd s (x + count) with
    | .fault e => .fault e
    | .ok c =>
      if c ≠ NUL then
        match wr s x c with
        | .fault e => .fault e
        | .ok s1 => trimShift count fuel s1 (x + 1)
      else wr s x NUL

/-- The function `trim`, in place on the block holding the string. -/
def trim (s : Buf) : Mem Buf :=
  match strlen s with
  | .fault e => .fault e
  | .ok n =>
    -- int i = strlen(s) - 1;
    let i0 : Int := (n : Int) - 1
    let back : Mem Int :=
      if 0 < i0 then
        match trimBack s i0.toNat with
        | .ok j => .ok (j : Int)
        | .fault e => .fault e
      else .ok i0
    match back with
    | .fault e => .fault e
    | .ok i =>
      -- s[i + 1] = '\0';
      match wr s (i + 1).toNat NUL with
      | .fault e => .fault e
      | .ok s1 =>
        match trimCount s1 0 with
        | .fault e => .fault e
        | .ok count => trimShift count (s1.length + 1) s1 0

/-! ## The operating system -/

/-- Bytes of an ASCII string literal. -/
def bytes (t : String) : List Nat := t.toList.map Char.toNat

/-- The calls a process issues, in the order it issues them.  `alarm`, `kill`
and `signal` are listed so that their absence from a run can be stated. -/
inductive Call where
  | write (text : List Nat)
  | read (count : Nat)
  | malloc (size : Nat)
  | free
  | printf (text : List Nat)
  | perror (msg : String)
  | fork
  | execve (path : List Nat) (argv : List (List Nat)) (envp : List (List Nat))
  | wait
  | alarm (seconds : Int)
  | kill (pid : Int) (sig : Nat)
  | signal (signum : Nat)
  deriving DecidableEq, Repr

/-- How control leaves a function. -/
inductive Outcome (α : Type) where
  /-- The function returns to its caller. -/
  | ret (a : α)
  /-- The process ends through `exit(code)`. -/
  | exit (code : Int)
  /-- The process image was replaced by `execve`; this program runs no more. -/
  | replaced
  /-- The process stays blocked in a system call. -/
  | blocked
  /-- A memory fault: the behaviour of the C program is undefined. -/
  | fault (f : Fault)
  deriving DecidableEq, Repr

/-- The status word stored by `wait`, by the class the `WIF...` macros of
`<sys/wait.h>` put it in. -/
inductive WStatus where
  | exited (code : Nat)
  | signaled (sig : Nat)
  | stopped (sig : Nat)
  | continued
  deriving DecidableEq, Repr

/-- The macro `WIFEXITED`. -/
def WIFEXITED : WStatus → Bool
  | .exited _ => true
  | _ => false

/-- The macro `WIFSIGNALED`. -/
def WIFSIGNALED : WStatus → Bool
  | .signaled _ => true
  | _ => false

/-- The `errno` value of a call interrupted by the delivery of a signal. -/
def EINTR : Nat := 4

/-- The `errno` value of `wait` in a process without children. -/
def ECHILD : Nat := 10

/-- One return of `wait(&status)`: `-1` with an `errno`, or the identifier
of a child whose state changed, with the status stored. -/
inductive WaitRes where
  | fail (errno : Nat)
  | ok (pid : Int) (status : WStatus)
  deriving DecidableEq, Repr

/-- What `read` finds on standard input: an error (`read` returns `-1`), or
the bytes waiting there (none at end of input). -/
inductive ReadRes where
  | error
  | data (pending : List Nat)
  deriving DecidableEq, Repr

/-- The operating system as seen by one call of `executeShell`. -/
structure Env where
  /-- The return value of `write(STDOUT_FILENO, text, strlen(text))`. -/
  writeRet : List Nat → Int
  /-- The byte found at each index of a block fresh from `malloc`. -/
  garbage : Nat → Nat
  /-- The state of standard input. -/
  stdin : ReadRes
  /-- The return value of `fork()` in the process that is followed. -/
  forkRet : Int
  /-- The return value of `execve`; `none` when it replaces the image. -/
  execveRet : Option Int
  /-- The successive returns of `wait`; after the last, `wait` blocks. -/
  waits : List WaitRes

/-- The block returned by `malloc(size)`, taken to succeed. -/
def malloc (env : Env) (size : Nat) : Buf := (List.range size).map env.garbage

/-- The call `read(STDIN_FILENO, command, count)`: its return value and the
bytes it stores at the start of `command`. -/
def read (env : Env) (count : Nat) : Int × List Nat :=
  match env.stdin with
  | .error => (-1, [])
  | .data pending => (((pending.take count).length : Nat), pending.take count)

/-! ## The functions of the shell -/

/-- The function `writeToStdout`. -/
def writeToStdout (env : Env) (text : List Nat) : List Call × Outcome Unit :=
  if env.writeRet text = -1 then
    ([.write text, .perror "Error in write"], .exit EXIT_FAILURE)
  else ([.write text], .ret ())

/-- The loop of `getCommandFromInput`, over the bytes `command[i]`,
`i < numBytes`, still to visit:
`for (; i < numBytes; i++) { if (command[i] == '\n') break; inputBuffer[i] = command[i]; }`.
The result is the value of `i` after the loop and the block. -/
def copyLine : List Nat → Nat → Buf → Mem (Nat × Buf)
  | [], i, inputBuffer => .ok (i, inputBuffer)
  | c :: rest, i, inputBuffer =>
    if c = NEWLINE then .ok (i, inputBuffer)
    else match wr inputBuffer i c with
      | .fault e => .fault e
      | .ok b => copyLine rest (i + 1) b

/-- The memory part of `getCommandFromInput` after `read`: the copy loop,
`inputBuffer[i] = '\0'`, `trim(inputBuffer)` and `strlen(inputBuffer)`.
The result is the block and the length of its string. -/
def fillBuffer (command : List Nat) (inputBuffer : Buf) : Mem (Buf × Nat) :=
  match copyLine command 0 inputBuffer with
  | .fault e => .fault e
  | .ok (i, b) =>
    match wr b i NUL with
    | .fault e => .fault e
    | .ok b1 =>
      match trim b1 with
      | .fault e => .fault e
      | .ok b2 =>
        match strlen b2 with
        | .fault e => .fault e
        | .ok n => .ok (b2, n)

/-- The function `getCommandFromInput`.  The result `none` is `NULL`; a
returned pointer is given by the block it points to. -/
def getCommandFromInput (env : Env) : List Call × Outcome (Option Buf) :=
  let inputBuffer := malloc env INPUT_SIZE
  let (numBytes, command) := read env INPUT_SIZE
  let t0 : List Call := [.malloc INPUT_SIZE, .read INPUT_SIZE]
  if numBytes = 0 then
    match writeToStdout env (bytes "Control D pressed, program ending") with
    | (t, .ret _) => (t0 ++ t ++ [.free], .exit 1)
    | (t, .exit code) => (t0 ++ t, .exit code)
    | (t, .replaced) => (t0 ++ t, .replaced)
    | (t, .blocked) => (t0 ++ t, .blocked)
    | (t, .fault f) => (t0 ++ t, .fault f)
  else
    match fillBuffer command inputBuffer with
    | .fault f => (t0, .fault f)
    | .ok (b, n) =>
      if n = 0 then (t0 ++ [.free], .ret none)
      else (t0 ++ [.printf (bytes "inputBuffer is  " ++ cstr b ++ [NEWLINE])], .ret (some b))

/-- The loop of the parent branch of `executeShell`:
`do { if (wait(&status) == -1) { perror(..); free(command); exit(EXIT_FAILURE); } }
 while (!WIFEXITED(status) && !WIFSIGNALED(status));` -/
def waitLoop : List WaitRes → List Call × Outcome Unit
  | [] => ([.wait], .blocked)
  | .fail _ :: _ =>
    ([.wait, .perror "Error in child process termination", .free], .exit EXIT_FAILURE)
  | .ok _ status :: rest =>
    if (!WIFEXITED status && !WIFSIGNALED status) = true then
      (.wait :: (waitLoop rest).1, (waitLoop rest).2)
    else ([.wait], .ret ())

/-- The state in which a call of `executeShell` leaves the process. -/
structure Result where
  /-- The calls issued, in order. -/
  trace : List Call
  /-- The value of the global `childPid`. -/
  childPid : Int
  /-- How control left `executeShell`. -/
  out : Outcome Unit
  deriving DecidableEq, Repr

set_option linter.unusedVariables false in
/-- The function `executeShell`, run in a process whose global `childPid`
holds the value given. -/
def executeShell (timeout : Int) (env : Env) (childPid : Int) : Result :=
  match writeToStdout env (bytes "penn-shredder# ") with
  | (t0, .ret _) =>
    match getCommandFromInput env with
    | (t1, .ret none) => ⟨t0 ++ t1, childPid, .ret ()⟩
    | (t1, .ret (some command)) =>
      -- childPid = fork();
      let childPid : Int := env.forkRet
      let t2 := t0 ++ t1 ++ [.fork]
      if childPid < 0 then
        ⟨t2 ++ [.perror "Error in creating child process \n", .free], childPid,
          .exit EXIT_FAILURE⟩
      else if childPid = 0 then
        let call := Call.execve (cstr command) [cstr command] []
        match env.execveRet with
        | none => ⟨t2 ++ [call], childPid, .replaced⟩
        | some r =>
          if r = -1 then
            ⟨t2 ++ [call, .perror "Error in execve", .free], childPid, .exit EXIT_FAILURE⟩
          else ⟨t2 ++ [call, .free], childPid, .ret ()⟩
      else
        match waitLoop env.waits with
        | (t3, .ret _) => ⟨t2 ++ t3 ++ [.free], childPid, .ret ()⟩
        | (t3, o) => ⟨t2 ++ t3, childPid, o⟩
    | (t1, .exit code) => ⟨t0 ++ t1, childPid, .exit code⟩
    | (t1, .replaced) => ⟨t0 ++ t1, childPid, .replaced⟩
    | (t1, .blocked) => ⟨t0 ++ t1, childPid, .blocked⟩
    | (t1, .fault f) => ⟨t0 ++ t1, childPid, .fault f⟩
  | (t0, o) => ⟨t0, childPid, o⟩

/-! ## Sample environments -/

/-- An operating system in which every `write` succeeds, fresh blocks hold
the byte `0xAA`, the line typed is `line`, and `fork`, `execve` and `wait`
return as given. -/
def sampleEnv (line : List Nat) (forkRet : Int) (execveRet : Option Int)
    (waits : List WaitRes) : Env :=
  ⟨fun text => text.length, fun _ => 170, .data line, forkRet, execveRet, waits⟩

/-! ## Predicates on strings -/

/-- A string without NUL. -/
def NulFree (s : List Nat) : Prop := ∀ c ∈ s, c ≠ NUL

instance (s : List Nat) : Decidable (NulFree s) := by
  unfold NulFree
  infer_instance

/-- What `trim` leaves behind: a string that does not start with a space
and, when it has two characters or more, does not end in a space or tab. -/
def Trimmed (t : List Nat) : Prop :=
  t.head? ≠ some SPACE ∧
    (2 ≤ t.length → t[t.length - 1]? ≠ some SPACE ∧ t[t.length - 1]? ≠ some TAB)

instance (t : List Nat) : Decidable (Trimmed t) := by
  unfold Trimmed
  infer_instance

/-! ## Parts of `executeShell` -/

/-- The prompt written by `executeShell`. -/
def prompt : List Nat := bytes "penn-shredder# "

/-- The image-replacement call of the child branch for the command in `b`. -/
def execveCall (b : Buf) : Call := .execve (cstr b) [cstr b] []

/-- The body of `executeShell` from `fork` on, for the command in block `b`
and the calls `t` issued before. -/
def afterFork (env : Env) (t : List Call) (b : Buf) : Result :=
  if env.forkRet < 0 then
    ⟨t ++ [.fork] ++ [.perror "Error in creating child process \n", .free], env.forkRet,
      .exit EXIT_FAILURE⟩
  else if env.forkRet = 0 then
    match env.execveRet with
    | none => ⟨t ++ [.fork] ++ [execveCall b], env.forkRet, .replaced⟩
    | some r =>
      if r = -1 then
        ⟨t ++ [.fork] ++ [execveCall b, .perror "Error in execve", .free], env.forkRet,
          .exit EXIT_FAILURE⟩
      else ⟨t ++ [.fork] ++ [execveCall b, .free], env.forkRet, .ret ()⟩
  else
    match waitLoop env.waits with
    | (t3, .ret _) => ⟨t ++ [.fork] ++ t3 ++ [.free], env.forkRet, .ret ()⟩
    | (t3, o) => ⟨t ++ [.fork] ++ t3, env.forkRet, o⟩

/-- The image-replacement calls. -/
def Call.isExecve : Call → Bool
  | .execve _ _ _ => true
  | _ => false

/-- The calls that arm or disarm the timer. -/
def Call.isAlarm : Call → Bool
  | .alarm _ => true
  | _ => false

/-! ## Sample runs -/

/-- The line `/bin/ls` as typed, newline included. -/
def lsLine : List Nat := bytes "/bin/ls\n"

/-- The block `getCommandFromInput` returns for `lsLine` in a `sampleEnv`. -/
def lsBlock : Buf := bytes "/bin/ls" ++ NUL :: List.replicate 1016 170

/-- The parent process: `fork` returns 7, the child exits with status 0. -/
def parentEnv : Env := sampleEnv lsLine 7 none [.ok 7 (.exited 0)]

/-- The child process, in which `execve` fails. -/
def childEnv : Env := sampleEnv lsLine 0 (some (-1)) []

/-- The parent process whose first `wait` is interrupted by a signal. -/
def interruptedEnv : Env := sampleEnv lsLine 7 none [.fail EINTR, .ok 7 (.exited 0)]

/-- The shell when `fork` fails. -/
def forkFailEnv : Env := sampleEnv lsLine (-1) none []

/-- The shell at a blank line: only the newline is typed. -/
def blankEnv : Env := sampleEnv (bytes "\n") 7 none []

/-- The line holding one tab. -/
def tabEnv : Env := sampleEnv (bytes "\t\n") 7 none [.ok 7 (.exited 0)]

/-- A read of 1024 letters `a` with no newline among them. -/
def fullEnv : Env := sampleEnv (List.replicate 1024 97) 7 none [.ok 7 (.exited 0)]

/-! ## The specification of trimming -/

/-- Trimming as the specification words it: the longest prefix and the
longest suffix of spaces and tabs are removed, the rest is kept in order. -/
def specTrim (s : List Nat) : List Nat :=
  ((s.dropWhile fun c => c = SPACE ∨ c = TAB).reverse.dropWhile
    fun c => c = SPACE ∨ c = TAB).reverse

/-- The 1024-byte block holding the string `"\tls"`. -/
def tabLsBlock : Buf := bytes "\tls" ++ NUL :: List.replicate 1020 170

/-- The 1024-byte block holding the string `"\t"`. -/
def tabBlock : Buf := TAB :: NUL :: List.replicate 1022 170

/-! # Theorems -/

theorem nulFree_cons {a : Nat} {s : List Nat} :
    NulFree (a :: s) ↔ a ≠ NUL ∧ NulFree s := by
  simp [NulFree]

theorem strlen_terminated (s rest : List Nat) (h : NulFree s) :
    strlen (s ++ NUL :: rest) = .ok s.length := by
  induction s with
  | nil => simp [strlen]
  | cons a s ih =>
    obtain ⟨ha, hs⟩ := nulFree_cons.mp h
    simp [strlen, ha, ih hs]

theorem cstr_terminated (s rest : List Nat) (h : NulFree s) :
    cstr (s ++ NUL :: rest) = s := by
  induction s with
  | nil => simp [cstr]
  | cons a s ih =>
    obtain ⟨ha, hs⟩ := nulFree_cons.mp h
    simp [cstr, ha, ih hs]

theorem rd_of_getElem? {s : Buf} {i c : Nat} (h : s[i]? = some c) : rd s i = .ok c := by
  simp [rd, h]

theorem rd_append_left {s r : Buf} {i : Nat} (h : i < s.length) :
    rd (s ++ r) i = .ok (s.get ⟨i, h⟩) := by
  apply rd_of_getElem?
  rw [List.getElem?_append_left h]
  simp [List.getElem?_eq_getElem h]

theorem rd_append_right {s r : Buf} {k c : Nat} (h : r[k]? = some c) :
    rd (s ++ r) (s.length + k) = .ok c := by
  apply rd_of_getElem?
  simp [List.getElem?_append_right, h]

theorem wr_at_length (a r : List Nat) (c v : Nat) :
    wr (a ++ c :: r) a.length v = .ok (a ++ v :: r) := by
  simp [wr]

/-! ## The loops of `trim` on a terminated string -/

theorem trimBack_spec (s r : Buf) :
    ∀ i, i < s.length → ∃ j, j ≤ i ∧ trimBack (s ++ r) i = .ok j ∧
      (j = 0 ∨ (s[j]? ≠ some SPACE ∧ s[j]? ≠ some TAB)) := by
  intro i
  induction i with
  | zero => intro _; exact ⟨0, le_refl _, rfl, Or.inl rfl⟩
  | succ i ih =>
    intro hi
    by_cases hc : s.get ⟨i + 1, hi⟩ = SPACE ∨ s.get ⟨i + 1, hi⟩ = TAB
    · obtain ⟨j, hj, hrun, hprop⟩ := ih (by omega)
      refine ⟨j, by omega, ?_, hprop⟩
      rw [trimBack, rd_append_left hi]
      simp only [hc, if_true]
      exact hrun
    · refine ⟨i + 1, le_refl _, ?_, Or.inr ?_⟩
      · rw [trimBack, rd_append_left hi]
        simp only [hc, if_false]
      · rw [List.getElem?_eq_getElem hi]
        simp only [List.get_eq_getElem, not_or] at hc
        simpa using hc

theorem trimCount_spec (r : List Nat) :
    ∀ (u : List Nat) (k : Nat), NulFree u → ∃ pre t, u = pre ++ t ∧ (∀ c ∈ pre, c = SPACE) ∧
      t.head? ≠ some SPACE ∧ trimCount (u ++ NUL :: r) k = .ok (k + pre.length) := by
  intro u
  induction u with
  | nil =>
    intro k _
    exact ⟨[], [], rfl, by simp, by simp, by simp [trimCount, NUL, SPACE]⟩
  | cons a u ih =>
    intro k h
    obtain ⟨_, hu⟩ := nulFree_cons.mp h
    by_cases ha : a = SPACE
    · obtain ⟨pre, t, hsplit, hpre, ht, hrun⟩ := ih (k + 1) hu
      refine ⟨a :: pre, t, by simp [hsplit], ?_, ht, ?_⟩
      · intro c hc
        rcases List.mem_cons.mp hc with h1 | h1
        · exact h1 ▸ ha
        · exact hpre c h1
      · simp only [List.cons_append, trimCount, ha, if_true, List.length_cons]
        rw [show k + (pre.length + 1) = k + 1 + pre.length by omega]
        exact hrun
    · exact ⟨[], a :: u, rfl, by simp, by simpa using ha, by simp [trimCount, ha]⟩

theorem trimShift_spec (count : Nat) (tail : List Nat) :
    ∀ (u : List Nat), NulFree u → ∀ (fuel : Nat) (done cur : List Nat), u.length < fuel →
      cur.drop count = u ++ NUL :: tail →
      trimShift count fuel (done ++ cur) done.length =
        .ok (done ++ u ++ NUL :: cur.drop (u.length + 1)) := by
  intro u
  induction u with
  | nil =>
    intro _ fuel done cur hfuel hcur
    obtain ⟨f, rfl⟩ : ∃ f, fuel = f + 1 := ⟨fuel - 1, by simp at hfuel; omega⟩
    have hget : cur[count]? = some NUL := by
      have := List.getElem?_drop (L := cur) (i := count) (j := 0)
      rw [hcur] at this
      simpa using this.symm
    cases cur with
    | nil => simp at hget
    | cons c cur1 =>
      rw [trimShift, rd_append_right hget]
      simp only [ne_eq, not_true_eq_false, if_false]
      rw [wr_at_length]
      simp
  | cons a u ih =>
    intro h fuel done cur hfuel hcur
    obtain ⟨ha, hu⟩ := nulFree_cons.mp h
    obtain ⟨f, rfl⟩ : ∃ f, fuel = f + 1 := ⟨fuel - 1, by simp at hfuel; omega⟩
    have hget : cur[count]? = some a := by
      have := List.getElem?_drop (L := cur) (i := count) (j := 0)
      rw [hcur] at this
      simpa using this.symm
    cases cur with
    | nil => simp at hget
    | cons c cur1 =>
      rw [trimShift, rd_append_right hget]
      simp only [ne_eq, ha, not_false_eq_true, if_true]
      rw [wr_at_length]
      simp only []
      have hcur1 : cur1.drop count = u ++ NUL :: tail := by
        have h1 : (c :: cur1).drop (count + 1) = ((c :: cur1).drop count).drop 1 := by
          rw [List.drop_drop]
        rw [hcur] at h1
        simpa using h1
      have := ih hu f (done ++ [a]) cur1 (by simpa using hfuel) hcur1
      simp only [List.length_append, List.length_singleton, List.append_assoc,
        List.singleton_append] at this
      rw [this]
      simp

theorem trim_of_strlen_zero {s : Buf} (h : strlen s = .ok 0) :
    trim s =
      match wr s 0 NUL with
      | .fault e => .fault e
      | .ok s1 =>
        match trimCount s1 0 with
        | .fault e => .fault e
        | .ok count => trimShift count (s1.length + 1) s1 0 := by
  simp [trim, h]

theorem trim_of_strlen_succ {s : Buf} {n j : Nat} (h : strlen s = .ok (n + 1))
    (hj : trimBack s n = .ok j) :
    trim s =
      match wr s (j + 1) NUL with
      | .fault e => .fault e
      | .ok s1 =>
        match trimCount s1 0 with
        | .fault e => .fault e
        | .ok count => trimShift count (s1.length + 1) s1 0 := by
  cases n with
  | zero =>
    have : j = 0 := by simpa [trimBack] using hj.symm
    subst this
    simp [trim, h]
  | succ m =>
    have hpos : (0 : Int) < ((m + 1 + 1 : Nat) : Int) - 1 := by omega
    have htoNat : (((m + 1 + 1 : Nat) : Int) - 1).toNat = m + 1 := by omega
    simp only [trim, h, hpos, if_true, htoNat, hj]
    have : ((j : Int) + 1).toNat = j + 1 := by omega
    rw [this]

/-- The two last loops of `trim` on a block `s1 ++ NUL :: r`: the leading
spaces of `s1` are dropped and the rest is moved to the front. -/
theorem trim_tail_spec (s1 r : List Nat) (h : NulFree s1) :
    ∃ pre t rest1, s1 = pre ++ t ∧ (∀ c ∈ pre, c = SPACE) ∧ t.head? ≠ some SPACE ∧
      (match trimCount (s1 ++ NUL :: r) 0 with
        | .fault e => Mem.fault e
        | .ok count => trimShift count ((s1 ++ NUL :: r).length + 1) (s1 ++ NUL :: r) 0)
        = .ok (t ++ NUL :: rest1) := by
  obtain ⟨pre, t, hsplit, hpre, ht, hrun⟩ := trimCount_spec r s1 0 h
  have hnf : NulFree t := fun c hc => h c (by rw [hsplit]; exact List.mem_append_right _ hc)
  have hdrop : (s1 ++ NUL :: r).drop (0 + pre.length) = t ++ NUL :: r := by
    rw [hsplit]; simp
  have hfuel : t.length < (s1 ++ NUL :: r).length + 1 := by
    rw [hsplit]; simp; omega
  have := trimShift_spec (0 + pre.length) r t hnf _ [] (s1 ++ NUL :: r) hfuel hdrop
  refine ⟨pre, t, List.drop (t.length + 1) (s1 ++ NUL :: r), hsplit, hpre, ht, ?_⟩
  rw [hrun]
  simp only [List.nil_append, List.length_nil] at this
  exact this

/-- The function `trim` returns on every terminated string and leaves a
terminated, trimmed string. -/
theorem trim_spec (s rest : List Nat) (h : NulFree s) :
    ∃ t rest1, trim (s ++ NUL :: rest) = .ok (t ++ NUL :: rest1) ∧ NulFree t ∧ Trimmed t := by
  cases hs : s.length with
  | zero =>
    have hnil : s = [] := List.length_eq_zero.mp hs
    subst hnil
    obtain ⟨pre, t, rest1, hsplit, _, _, hrun⟩ := trim_tail_spec [] rest h
    have ht : t = [] := by
      have := congrArg List.length hsplit
      simp at this
      exact List.length_eq_zero.mp (by omega)
    subst ht
    refine ⟨[], rest1, ?_, h, by simp [Trimmed]⟩
    rw [trim_of_strlen_zero (by simpa using strlen_terminated [] rest h)]
    have hw : wr ([] ++ NUL :: rest) 0 NUL = .ok ([] ++ NUL :: rest) := wr_at_length [] rest NUL NUL
    rw [hw]
    exact hrun
  | succ n =>
    obtain ⟨j, hjn, hback, hj⟩ := trimBack_spec s (NUL :: rest) n (by omega)
    have hlen : (s.take (j + 1)).length = j + 1 := by
      rw [List.length_take]; omega
    have hnf1 : NulFree (s.take (j + 1)) := fun c hc => h c (List.mem_of_mem_take hc)
    obtain ⟨c, r, hr⟩ : ∃ c r, s.drop (j + 1) ++ NUL :: rest = c :: r := by
      cases s.drop (j + 1) with
      | nil => exact ⟨_, _, rfl⟩
      | cons a l => exact ⟨_, _, rfl⟩
    have hb : s ++ NUL :: rest = s.take (j + 1) ++ c :: r := by
      rw [← hr, ← List.append_assoc, List.take_append_drop]
    obtain ⟨pre, t, rest1, hsplit, _, hhead, hrun⟩ := trim_tail_spec (s.take (j + 1)) r hnf1
    have hnft : NulFree t :=
      fun c hc => hnf1 c (by rw [hsplit]; exact List.mem_append_right _ hc)
    refine ⟨t, rest1, ?_, hnft, hhead, ?_⟩
    · have hstr : strlen (s ++ NUL :: rest) = .ok (n + 1) := by
        rw [strlen_terminated s rest h, hs]
      rw [trim_of_strlen_succ hstr hback, hb]
      have hw := wr_at_length (s.take (j + 1)) r c NUL
      rw [hlen] at hw
      rw [hw]
      exact hrun
    · intro h2
      have hlen2 : pre.length + t.length = j + 1 := by
        have := congrArg List.length hsplit
        rw [hlen, List.length_append] at this
        omega
      have hlast : t[t.length - 1]? = s[j]? := by
        have h1 : (pre ++ t)[pre.length + (t.length - 1)]? = t[t.length - 1]? := by
          rw [List.getElem?_append_right (by omega)]
          congr 1
          omega
        rw [← h1, ← hsplit, show pre.length + (t.length - 1) = j by omega]
        exact List.getElem?_take_of_lt (by omega)
      rcases hj with hj0 | hj1
      · omega
      · rw [hlast]; exact hj1

/-- On a terminated, trimmed string `trim` changes nothing in the block. -/
theorem trim_fixed (t rest : List Nat) (h : NulFree t) (ht : Trimmed t) :
    trim (t ++ NUL :: rest) = .ok (t ++ NUL :: rest) := by
  have htail : (match trimCount (t ++ NUL :: rest) 0 with
      | .fault e => Mem.fault e
      | .ok count =>
        trimShift count ((t ++ NUL :: rest).length + 1) (t ++ NUL :: rest) 0)
      = .ok (t ++ NUL :: rest) := by
    have hcount : trimCount (t ++ NUL :: rest) 0 = .ok 0 := by
      cases t with
      | nil => simp [trimCount, NUL, SPACE]
      | cons a u =>
        have : a ≠ SPACE := by simpa using ht.1
        simp [trimCount, this]
    rw [hcount]
    have := trimShift_spec 0 rest t h ((t ++ NUL :: rest).length + 1) [] (t ++ NUL :: rest)
      (by simp; omega) (by simp)
    simpa using this
  cases hs : t.length with
  | zero =>
    have hnil : t = [] := List.length_eq_zero.mp hs
    subst hnil
    rw [trim_of_strlen_zero (by simpa using strlen_terminated [] rest h)]
    have hw : wr ([] ++ NUL :: rest) 0 NUL = .ok ([] ++ NUL :: rest) := wr_at_length [] rest NUL NUL
    rw [hw]
    exact htail
  | succ n =>
    have hstr : strlen (t ++ NUL :: rest) = .ok (n + 1) := by
      rw [strlen_terminated t rest h, hs]
    have hback : trimBack (t ++ NUL :: rest) n = .ok n := by
      cases n with
      | zero => rfl
      | succ m =>
        have hlt : m + 1 < t.length := by omega
        have h2 := ht.2 (by omega)
        rw [hs, show m + 1 + 1 - 1 = m + 1 by omega, List.getElem?_eq_getElem hlt] at h2
        rw [trimBack, rd_append_left hlt]
        have hc : ¬ (t.get ⟨m + 1, hlt⟩ = SPACE ∨ t.get ⟨m + 1, hlt⟩ = TAB) := by
          simpa using h2
        simp only [hc, if_false]
    rw [trim_of_strlen_succ hstr hback]
    have hw := wr_at_length t rest NUL NUL
    rw [hs] at hw
    rw [hw]
    exact htail

theorem executeShell_of_command (timeout : Int) (env : Env) (pid : Int) (b : Buf)
    (hw : env.writeRet prompt ≠ -1) (hc : (getCommandFromInput env).2 = .ret (some b)) :
    executeShell timeout env pid =
      afterFork env ([.write prompt] ++ (getCommandFromInput env).1) b := by
  have hpair : getCommandFromInput env = ((getCommandFromInput env).1, .ret (some b)) :=
    Prod.ext rfl hc
  have hp : env.writeRet (bytes "penn-shredder# ") ≠ -1 := hw
  unfold executeShell writeToStdout afterFork
  rw [if_neg hp]
  simp only []
  rw [hpair]
  rfl

theorem waitLoop_terminal (p : Int) (st : WStatus) (rest : List WaitRes)
    (h : WIFEXITED st = true ∨ WIFSIGNALED st = true) :
    waitLoop (.ok p st :: rest) = ([.wait], .ret ()) := by
  rcases h with h | h <;> simp [waitLoop, h]

theorem waitLoop_fail (e : Nat) (rest : List WaitRes) :
    (waitLoop (.fail e :: rest)).2 = .exit EXIT_FAILURE := rfl

theorem writeToStdout_trace (env : Env) (text : List Nat) :
    ∀ c ∈ (writeToStdout env text).1, c.isExecve = false ∧ c.isAlarm = false := by
  intro c hc
  unfold writeToStdout at hc
  split at hc
  · simp at hc
    rcases hc with h | h <;> subst h <;> exact ⟨rfl, rfl⟩
  · simp at hc
    subst hc
    exact ⟨rfl, rfl⟩

theorem getCommandFromInput_trace (env : Env) :
    ∀ c ∈ (getCommandFromInput env).1, c.isExecve = false ∧ c.isAlarm = false := by
  have hw := writeToStdout_trace env (bytes "Control D pressed, program ending")
  unfold getCommandFromInput
  simp only []
  generalize writeToStdout env (bytes "Control D pressed, program ending") = w at hw
  obtain ⟨t, o⟩ := w
  simp only [] at hw
  intro c hc
  split at hc
  · have key : ∀ d : Call, (d = .malloc INPUT_SIZE ∨ d = .read INPUT_SIZE ∨ d = .free ∨ d ∈ t) →
        d.isExecve = false ∧ d.isAlarm = false := by
      rintro d (h | h | h | h)
      · subst h; exact ⟨rfl, rfl⟩
      · subst h; exact ⟨rfl, rfl⟩
      · subst h; exact ⟨rfl, rfl⟩
      · exact hw d h
    apply key
    cases o <;> simp only [List.mem_append, List.mem_cons, List.mem_singleton,
      List.not_mem_nil, or_false] at hc <;> tauto
  · split at hc
    · simp at hc
      rcases hc with h | h <;> subst h <;> exact ⟨rfl, rfl⟩
    · split at hc <;> simp at hc <;> rcases hc with h | h | h <;> subst h <;> exact ⟨rfl, rfl⟩

theorem waitLoop_trace (ws : List WaitRes) :
    ∀ c ∈ (waitLoop ws).1, c.isExecve = false ∧ c.isAlarm = false := by
  induction ws with
  | nil => intro c hc; simp [waitLoop] at hc; subst hc; exact ⟨rfl, rfl⟩
  | cons w ws ih =>
    intro c hc
    cases w with
    | fail e =>
      simp [waitLoop] at hc
      rcases hc with h | h | h <;> subst h <;> exact ⟨rfl, rfl⟩
    | ok p st =>
      unfold waitLoop at hc
      split at hc
      · rcases List.mem_cons.mp hc with h | h
        · subst h; exact ⟨rfl, rfl⟩
        · exact ih c h
      · simp at hc; subst hc; exact ⟨rfl, rfl⟩

theorem strlen_eq_length_cstr : ∀ (b : Buf) (n : Nat), strlen b = .ok n → (cstr b).length = n := by
  intro b
  induction b with
  | nil => intro n h; simp [strlen] at h
  | cons c t ih =>
    intro n h
    by_cases hc : c = NUL
    · simp [strlen, hc] at h
      simp [cstr, hc, h]
    · simp only [strlen, hc, if_false] at h
      cases hs : strlen t with
      | fault e => simp [hs] at h
      | ok m =>
        simp only [hs, Mem.ok.injEq] at h
        simp [cstr, hc, ih m hs, h]

/-- A command returned by `getCommandFromInput` is not the empty string. -/
theorem getCommandFromInput_nonempty (env : Env) (b : Buf)
    (hc : (getCommandFromInput env).2 = .ret (some b)) : cstr b ≠ [] := by
  unfold getCommandFromInput writeToStdout at hc
  simp only [] at hc
  split at hc
  · split at hc <;> simp at hc
  · split at hc
    · simp at hc
    · rename_i b1 n hfill
      split at hc
      · simp at hc
      · rename_i hn
        simp only [Outcome.ret.injEq, Option.some.injEq] at hc
        subst hc
        unfold fillBuffer at hfill
        split at hfill
        · simp at hfill
        · split at hfill
          · simp at hfill
          · split at hfill
            · simp at hfill
            · split at hfill
              · simp at hfill
              · rename_i hstr
                simp only [Mem.ok.injEq, Prod.mk.injEq] at hfill
                obtain ⟨h1, h2⟩ := hfill
                subst h1 h2
                intro hnil
                have := strlen_eq_length_cstr _ _ hstr
                rw [hnil] at this
                exact hn this.symm

theorem copyLine_no_newline :
    ∀ (data done rest : List Nat), (∀ c ∈ data, c ≠ NEWLINE) → data.length ≤ rest.length →
      copyLine data done.length (done ++ rest) =
        .ok (done.length + data.length, done ++ data ++ rest.drop data.length) := by
  intro data
  induction data with
  | nil => intro done rest _ _; simp [copyLine]
  | cons c data ih =>
    intro done rest hnl hlen
    cases rest with
    | nil => simp at hlen
    | cons r rest1 =>
      have hc : c ≠ NEWLINE := hnl c (List.mem_cons_self _ _)
      have hrest : ∀ d ∈ data, d ≠ NEWLINE := fun d hd => hnl d (List.mem_cons_of_mem _ hd)
      have := ih (done ++ [c]) rest1 hrest (by simpa using hlen)
      simp only [List.length_append, List.length_singleton, List.append_assoc,
        List.singleton_append] at this
      rw [copyLine, if_neg hc, wr_at_length]
      simp only []
      rw [this]
      congr 1
      refine Prod.ext ?_ ?_
      · simp only [List.length_cons]; omega
      · simp

theorem copyLine_fill (data rest : List Nat) (hnl : ∀ c ∈ data, c ≠ NEWLINE)
    (hlen : data.length = rest.length) : copyLine data 0 rest = .ok (data.length, data) := by
  have := copyLine_no_newline data [] rest hnl (le_of_eq hlen)
  have hdrop : rest.drop data.length = [] := List.drop_eq_nil_of_le (le_of_eq hlen.symm)
  rw [hdrop] at this
  simpa using this

theorem malloc_length (env : Env) (n : Nat) : (malloc env n).length = n := by
  simp [malloc]

/-- A read that fills the whole of `command` with a line that has no
newline yet makes `getCommandFromInput` write the terminator one past the
end of `inputBuffer`. -/
theorem getCommandFromInput_overflow (env : Env) (pending : List Nat)
    (hin : env.stdin = .data pending) (hlen : INPUT_SIZE ≤ pending.length)
    (hnl : ∀ c ∈ pending.take INPUT_SIZE, c ≠ NEWLINE) :
    copyLine (read env INPUT_SIZE).2 0 (malloc env INPUT_SIZE) =
        .ok (INPUT_SIZE, pending.take INPUT_SIZE) ∧
      getCommandFromInput env =
        ([.malloc INPUT_SIZE, .read INPUT_SIZE], .fault (.oobWrite INPUT_SIZE)) := by
  have htake : (pending.take INPUT_SIZE).length = INPUT_SIZE := by
    rw [List.length_take]; omega
  have hread : read env INPUT_SIZE = (((INPUT_SIZE : Nat) : Int), pending.take INPUT_SIZE) := by
    unfold read
    rw [hin]
    simp only [htake]
  have hcopy : copyLine (pending.take INPUT_SIZE) 0 (malloc env INPUT_SIZE) =
      .ok (INPUT_SIZE, pending.take INPUT_SIZE) := by
    have := copyLine_fill (pending.take INPUT_SIZE) (malloc env INPUT_SIZE) hnl
      (by rw [htake, malloc_length])
    rw [htake] at this
    exact this
  have hwr : wr (pending.take INPUT_SIZE) INPUT_SIZE NUL = .fault (.oobWrite INPUT_SIZE) := by
    unfold wr
    rw [htake, if_neg (lt_irrefl _)]
  refine ⟨by rw [hread]; exact hcopy, ?_⟩
  have hne : ((INPUT_SIZE : Nat) : Int) ≠ 0 := by decide
  unfold getCommandFromInput
  rw [hread]
  simp only [hne, if_false, fillBuffer, hcopy, hwr]

/-- No call of `executeShell` arms a timer, whatever the timeout. -/
theorem executeShell_never_alarms (timeout : Int) (env : Env) (pid : Int) :
    ∀ c ∈ (executeShell timeout env pid).trace, c.isAlarm = false := by
  have hw := writeToStdout_trace env (bytes "penn-shredder# ")
  have hg := getCommandFromInput_trace env
  have hl := waitLoop_trace env.waits
  unfold executeShell
  generalize writeToStdout env (bytes "penn-shredder# ") = w at hw
  generalize getCommandFromInput env = g at hg
  generalize waitLoop env.waits = l at hl
  obtain ⟨t0, o0⟩ := w
  obtain ⟨t1, o1⟩ := g
  obtain ⟨t3, o3⟩ := l
  simp only [] at hw hg hl
  have key : ∀ d : Call, (d ∈ t0 ∨ d ∈ t1 ∨ d ∈ t3 ∨ d.isAlarm = false) → d.isAlarm = false := by
    rintro d (h | h | h | h)
    · exact (hw d h).2
    · exact (hg d h).2
    · exact (hl d h).2
    · exact h
  intro c hc
  apply key
  cases o0 with
  | ret u =>
    cases o1 with
    | ret cmd =>
      cases cmd with
      | none => simp only [List.mem_append] at hc; tauto
      | some b =>
        simp only [] at hc
        split at hc
        · simp only [List.mem_append, List.mem_cons, List.mem_singleton, List.not_mem_nil,
            or_false] at hc
          rcases hc with ((h | h) | h) | h | h
          · tauto
          · tauto
          · subst h; exact Or.inr (Or.inr (Or.inr rfl))
          · subst h; exact Or.inr (Or.inr (Or.inr rfl))
          · subst h; exact Or.inr (Or.inr (Or.inr rfl))
        · split at hc
          · split at hc
            · simp only [List.mem_append, List.mem_cons, List.mem_singleton, List.not_mem_nil,
                or_false] at hc
              rcases hc with ((h | h) | h) | h
              · tauto
              · tauto
              · subst h; exact Or.inr (Or.inr (Or.inr rfl))
              · subst h; exact Or.inr (Or.inr (Or.inr rfl))
            · split at hc
              · simp only [List.mem_append, List.mem_cons, List.mem_singleton,
                  List.not_mem_nil, or_false] at hc
                rcases hc with ((h | h) | h) | h | h | h
                · tauto
                · tauto
                · subst h; exact Or.inr (Or.inr (Or.inr rfl))
                · subst h; exact Or.inr (Or.inr (Or.inr rfl))
                · subst h; exact Or.inr (Or.inr (Or.inr rfl))
                · subst h; exact Or.inr (Or.inr (Or.inr rfl))
              · simp only [List.mem_append, List.mem_cons, List.mem_singleton,
                  List.not_mem_nil, or_false] at hc
                rcases hc with ((h | h) | h) | h | h
                · tauto
                · tauto
                · subst h; exact Or.inr (Or.inr (Or.inr rfl))
                · subst h; exact Or.inr (Or.inr (Or.inr rfl))
                · subst h; exact Or.inr (Or.inr (Or.inr rfl))
          · cases o3 <;>
              simp only [List.mem_append, List.mem_cons, List.mem_singleton,
                List.not_mem_nil, or_false] at hc
            all_goals
              first
              | (rcases hc with (((h | h) | h) | h) | h
                 · tauto
                 · tauto
                 · subst h; exact Or.inr (Or.inr (Or.inr rfl))
                 · tauto
                 · subst h; exact Or.inr (Or.inr (Or.inr rfl)))
              | (rcases hc with ((h | h) | h) | h
                 · tauto
                 · tauto
                 · subst h; exact Or.inr (Or.inr (Or.inr rfl))
                 · tauto)
    | exit code => simp only [List.mem_append] at hc; tauto
    | replaced => simp only [List.mem_append] at hc; tauto
    | blocked => simp only [List.mem_append] at hc; tauto
    | fault f => simp only [List.mem_append] at hc; tauto
  | exit code => exact Or.inl hc
  | replaced => exact Or.inl hc
  | blocked => exact Or.inl hc
  | fault f => exact Or.inl hc

theorem afterFork_childPid (env : Env) (t : List Call) (b : Buf) :
    (afterFork env t b).childPid = env.forkRet := by
  unfold afterFork
  split
  · rfl
  · split
    · split
      · rfl
      · split <;> rfl
    · split <;> rfl

theorem executeShell_prompt_failed (timeout : Int) (env : Env) (pid : Int)
    (hw : env.writeRet prompt = -1) : (executeShell timeout env pid).out = .exit EXIT_FAILURE := by
  have hp : env.writeRet (bytes "penn-shredder# ") = -1 := hw
  unfold executeShell writeToStdout
  rw [if_pos hp]

theorem afterFork_parent (env : Env) (t : List Call) (b : Buf) (hf : 0 < env.forkRet) :
    (afterFork env t b).out = (waitLoop env.waits).2 := by
  unfold afterFork
  rw [if_neg (by omega), if_neg (by omega)]
  generalize waitLoop env.waits = l
  obtain ⟨t3, o⟩ := l
  cases o <;> rfl

theorem executeShell_childPid_kept (timeout : Int) (env : Env) (pid : Int)
    (h : env.writeRet prompt = -1 ∨ ∀ b, (getCommandFromInput env).2 ≠ .ret (some b)) :
    (executeShell timeout env pid).childPid = pid := by
  unfold executeShell writeToStdout
  by_cases hp : env.writeRet (bytes "penn-shredder# ") = -1
  · rw [if_pos hp]
  · have hno : ∀ b, (getCommandFromInput env).2 ≠ .ret (some b) := by
      rcases h with h | h
      · exact absurd h hp
      · exact h
    rw [if_neg hp]
    simp only []
    generalize getCommandFromInput env = g at hno
    obtain ⟨t1, o⟩ := g
    cases o with
    | ret cmd =>
      cases cmd with
      | none => rfl
      | some b => exact absurd rfl (hno b)
    | exit code => rfl
    | replaced => rfl
    | blocked => rfl
    | fault f => rfl

theorem waitLoop_interrupted_run (n : Nat) (p : Int) (st : WStatus)
    (h : WIFEXITED st = true ∨ WIFSIGNALED st = true) :
    waitLoop (List.replicate n (.fail EINTR) ++ [.ok p st]) =
      if n = 0 then ([.wait], .ret ())
      else ([.wait, .perror "Error in child process termination", .free],
        .exit EXIT_FAILURE) := by
  cases n with
  | zero => simp [waitLoop_terminal p st [] h]
  | succ m => simp [List.replicate_succ, waitLoop]

set_option maxRecDepth 100000 in
theorem blankEnv_no_command : (getCommandFromInput blankEnv).2 = .ret none := by
  decide

theorem waitLoop_interrupted (n : Nat) (p : Int) (st : WStatus)
    (h : WIFEXITED st = true ∨ WIFSIGNALED st = true) :
    (waitLoop (List.replicate n (.fail EINTR) ++ [.ok p st])).2 =
      if n = 0 then .ret () else .exit EXIT_FAILURE := by
  cases n with
  | zero => simp [waitLoop_terminal p st [] h]
  | succ m => simp [List.replicate_succ, waitLoop]

set_option maxRecDepth 100000 in
theorem parentEnv_command : (getCommandFromInput parentEnv).2 = .ret (some lsBlock) := by
  decide

set_option maxRecDepth 100000 in
theorem childEnv_command : (getCommandFromInput childEnv).2 = .ret (some lsBlock) := by
  decide

set_option maxRecDepth 100000 in
theorem interruptedEnv_command :
    (getCommandFromInput interruptedEnv).2 = .ret (some lsBlock) := by
  decide

set_option maxRecDepth 100000 in
theorem forkFailEnv_command : (getCommandFromInput forkFailEnv).2 = .ret (some lsBlock) := by
  decide

/-! ## The claims -/

/-- C1 (counterexample): with the line `/bin/ls`, `fork` returning 7 and the
child reaped at the first `wait`, `executeShell` reads a non-empty command,
spawns, returns, and leaves `childPid` different from 0. -/
theorem childPid_not_cleared :
    (getCommandFromInput parentEnv).2 = .ret (some lsBlock) ∧ 0 < parentEnv.forkRet ∧
      (executeShell 0 parentEnv 0).out = .ret () ∧ (executeShell 0 parentEnv 0).childPid ≠ 0 := by
  refine ⟨parentEnv_command, by decide, ?_, ?_⟩
  · rw [executeShell_of_command 0 parentEnv 0 lsBlock (by decide) parentEnv_command]
    rfl
  · rw [executeShell_of_command 0 parentEnv 0 lsBlock (by decide) parentEnv_command,
      afterFork_childPid]
    decide

/-- C1 (amended): `executeShell` writes the global `childPid` only by the
assignment from `fork()` and never sets it back to 0.  For every call:
(a) when it reads a non-empty command, spawns a child successfully (`fork`
returns a positive identifier) and returns, `childPid` holds that child's
identifier when `executeShell` returns, and it is not 0; (b) whenever the
prompt is written and a non-empty command is read, `childPid` holds the
value `fork` returned when control leaves `executeShell`; (c) in every
other call (the prompt cannot be written, or no command is read) `childPid`
is left as the call found it. -/
theorem childPid_after_reap (timeout : Int) (env : Env) (pid : Int) :
    (∀ b, (getCommandFromInput env).2 = .ret (some b) → 0 < env.forkRet →
        (executeShell timeout env pid).out = .ret () →
        (executeShell timeout env pid).childPid = env.forkRet ∧
          (executeShell timeout env pid).childPid ≠ 0) ∧
      (∀ b, env.writeRet prompt ≠ -1 → (getCommandFromInput env).2 = .ret (some b) →
        (executeShell timeout env pid).childPid = env.forkRet) ∧
      ((env.writeRet prompt = -1 ∨ ∀ b, (getCommandFromInput env).2 ≠ .ret (some b)) →
        (executeShell timeout env pid).childPid = pid) := by
  refine ⟨?_, ?_, ?_⟩
  · intro b hc hf hr
    by_cases hw : env.writeRet prompt = -1
    · rw [executeShell_prompt_failed timeout env pid hw] at hr
      cases hr
    · rw [executeShell_of_command timeout env pid b hw hc, afterFork_childPid]
      exact ⟨rfl, by omega⟩
  · intro b hw hc
    rw [executeShell_of_command timeout env pid b hw hc, afterFork_childPid]
  · exact executeShell_childPid_kept timeout env pid

/-- Witness of `childPid_after_reap`: the run of `/bin/ls` in `parentEnv`
sets `childPid` to 7, and the blank line that follows it, read with
`childPid` equal to 7, returns and leaves it at 7. -/
theorem childPid_after_reap_witness :
    ((executeShell 0 parentEnv 0).childPid = parentEnv.forkRet ∧
        (executeShell 0 parentEnv 0).childPid ≠ 0) ∧
      (executeShell 0 parentEnv 0).childPid = 7 ∧
      (getCommandFromInput blankEnv).2 = .ret none ∧
      (executeShell 0 blankEnv 7).childPid = 7 :=
  ⟨(childPid_after_reap 0 parentEnv 0).1 lsBlock parentEnv_command (by decide)
      (by rw [executeShell_of_command 0 parentEnv 0 lsBlock (by decide) parentEnv_command]; rfl),
    (childPid_after_reap 0 parentEnv 0).2.1 lsBlock (by decide) parentEnv_command,
    blankEnv_no_command,
    (childPid_after_reap 0 blankEnv 7).2.2
      (Or.inr (fun b h => by rw [blankEnv_no_command] at h; cases h))⟩

set_option maxRecDepth 100000 in
/-- C2 (the code at the failing input): with timeout 5 and the line
`/bin/ls`, `executeShell` calls `fork` and its calls are exactly the ones
listed: no `alarm` is among them, before `fork` or after. -/
theorem no_alarm_before_fork :
    (executeShell 5 parentEnv 0).trace =
        [.write prompt, .malloc INPUT_SIZE, .read INPUT_SIZE,
          .printf (bytes "inputBuffer is  /bin/ls\n"), .fork, .wait, .free] ∧
      Call.fork ∈ (executeShell 5 parentEnv 0).trace ∧
      ∀ n, Call.alarm n ∉ (executeShell 5 parentEnv 0).trace := by
  have h : (executeShell 5 parentEnv 0).trace =
      [.write prompt, .malloc INPUT_SIZE, .read INPUT_SIZE,
        .printf (bytes "inputBuffer is  /bin/ls\n"), .fork, .wait, .free] := by
    decide
  refine ⟨h, ?_, ?_⟩
  · rw [h]; simp
  · intro n hn
    have := executeShell_never_alarms 5 parentEnv 0 _ hn
    simp [Call.isAlarm] at this

/-- C3: for every command block returned by `getCommandFromInput`, when
`execve` fails (returns -1) in the child branch (`fork` returned 0),
`executeShell` does not return: the process ends through
`exit(EXIT_FAILURE)`, a status that is not 0. -/
theorem execve_failure_exits (timeout : Int) (env : Env) (pid : Int) (b : Buf)
    (hw : env.writeRet prompt ≠ -1) (hc : (getCommandFromInput env).2 = .ret (some b))
    (hf : env.forkRet = 0) (he : env.execveRet = some (-1)) :
    (executeShell timeout env pid).out = .exit EXIT_FAILURE ∧ EXIT_FAILURE ≠ 0 ∧
      (executeShell timeout env pid).out ≠ .ret () := by
  have hout : (executeShell timeout env pid).out = .exit EXIT_FAILURE := by
    rw [executeShell_of_command timeout env pid b hw hc]
    unfold afterFork
    rw [if_neg (by omega), if_pos hf, he]
    rfl
  refine ⟨hout, by decide, ?_⟩
  rw [hout]
  intro h
  cases h

/-- Witness of `execve_failure_exits`: the child of `/bin/ls` when `execve`
fails. -/
theorem execve_failure_exits_witness :
    (executeShell 0 childEnv 0).out = .exit EXIT_FAILURE ∧ EXIT_FAILURE ≠ 0 ∧
      (executeShell 0 childEnv 0).out ≠ .ret () :=
  execve_failure_exits 0 childEnv 0 lsBlock (by decide) childEnv_command rfl rfl

/-- C4: for every command block `b` returned by `getCommandFromInput`, with
non-empty string `C = cstr b`, the child branch of `executeShell` issues
exactly one `execve` call, and it is `execve(C, [C], [])`: the path is `C`,
the argument vector is `[C]` and the environment is empty. -/
theorem child_execve_once (timeout : Int) (env : Env) (pid : Int) (b : Buf)
    (hw : env.writeRet prompt ≠ -1) (hc : (getCommandFromInput env).2 = .ret (some b))
    (hf : env.forkRet = 0) :
    cstr b ≠ [] ∧
      (executeShell timeout env pid).trace.filter Call.isExecve =
        [Call.execve (cstr b) [cstr b] []] := by
  refine ⟨getCommandFromInput_nonempty env b hc, ?_⟩
  have hpre : ([Call.write prompt] ++ (getCommandFromInput env).1).filter Call.isExecve = [] := by
    rw [List.filter_eq_nil_iff]
    intro c hmem
    rcases List.mem_append.mp hmem with h | h
    · simp only [List.mem_singleton] at h
      subst h
      simp [Call.isExecve]
    · simp [(getCommandFromInput_trace env c h).1]
  rw [executeShell_of_command timeout env pid b hw hc]
  unfold afterFork
  rw [if_neg (by omega), if_pos hf]
  cases env.execveRet with
  | none =>
    simp only [List.filter_append, hpre]
    rfl
  | some r =>
    by_cases hr : r = -1
    · simp only [hr, if_true, List.filter_append, hpre]
      rfl
    · simp only [hr, if_false, List.filter_append, hpre]
      rfl

/-- Witness of `child_execve_once`: the child of `/bin/ls`. -/
theorem child_execve_once_witness :
    cstr lsBlock ≠ [] ∧
      (executeShell 0 childEnv 0).trace.filter Call.isExecve =
        [Call.execve (cstr lsBlock) [cstr lsBlock] []] :=
  child_execve_once 0 childEnv 0 lsBlock (by decide) childEnv_command rfl

/-- C5 (counterexample): when the first `wait` fails with `EINTR` and the
second reports the child's exit, `executeShell` does not return: the shell
ends through `exit(EXIT_FAILURE)`. -/
theorem interrupted_wait_exits :
    interruptedEnv.waits = [.fail EINTR, .ok 7 (.exited 0)] ∧
      (executeShell 0 interruptedEnv 0).out = .exit EXIT_FAILURE ∧
      (executeShell 0 interruptedEnv 0).out ≠ .ret () := by
  have h : (executeShell 0 interruptedEnv 0).out = .exit EXIT_FAILURE := by
    rw [executeShell_of_command 0 interruptedEnv 0 lsBlock (by decide) interruptedEnv_command]
    rfl
  refine ⟨rfl, h, ?_⟩
  rw [h]
  intro h1
  cases h1

/-- C5 (amended): in the parent branch of `executeShell` a `wait` that
fails is an error also when it was interrupted by a signal, and it is not
retried.  For every sequence of wait results made of `n` failures with
`EINTR` followed by a terminal status (exited or signalled), `executeShell`
calls `wait` exactly once after `fork`: when `n = 0` it then releases the
command and returns; when `n > 0` that first `wait` fails, and
`executeShell` calls `perror`, releases the command and ends the shell
through `exit(EXIT_FAILURE)` without another `wait`. -/
theorem wait_interrupted_outcome (timeout : Int) (env : Env) (pid : Int) (b : Buf) (n : Nat)
    (p : Int) (st : WStatus) (hw : env.writeRet prompt ≠ -1)
    (hc : (getCommandFromInput env).2 = .ret (some b)) (hf : 0 < env.forkRet)
    (hwaits : env.waits = List.replicate n (.fail EINTR) ++ [.ok p st])
    (hst : WIFEXITED st = true ∨ WIFSIGNALED st = true) :
    ((executeShell timeout env pid).out = if n = 0 then .ret () else .exit EXIT_FAILURE) ∧
      (executeShell timeout env pid).trace =
        [.write prompt] ++ (getCommandFromInput env).1 ++ [.fork] ++
          (if n = 0 then [.wait, .free]
            else [.wait, .perror "Error in child process termination", .free]) := by
  refine ⟨?_, ?_⟩
  · rw [executeShell_of_command timeout env pid b hw hc, afterFork_parent env _ b hf, hwaits]
    exact waitLoop_interrupted n p st hst
  · rw [executeShell_of_command timeout env pid b hw hc]
    unfold afterFork
    rw [if_neg (by omega), if_neg (by omega), hwaits, waitLoop_interrupted_run n p st hst]
    cases n with
    | zero => simp
    | succ m => simp

/-- Witness of `wait_interrupted_outcome`: one interrupted `wait`. -/
theorem wait_interrupted_outcome_witness :
    ((executeShell 0 interruptedEnv 0).out = if 1 = 0 then .ret () else .exit EXIT_FAILURE) ∧
      (executeShell 0 interruptedEnv 0).trace =
        [.write prompt] ++ (getCommandFromInput interruptedEnv).1 ++ [.fork] ++
          (if 1 = 0 then [.wait, .free]
            else [.wait, .perror "Error in child process termination", .free]) :=
  wait_interrupted_outcome 0 interruptedEnv 0 lsBlock 1 7 (.exited 0) (by decide)
    interruptedEnv_command (by decide) rfl (Or.inl rfl)

/-- C6 (counterexample): when `fork` returns -1 for the command `/bin/ls`,
`executeShell` does not return to the shell loop: the shell ends through
`exit(EXIT_FAILURE)`. -/
theorem fork_failure_exits_shell :
    (getCommandFromInput forkFailEnv).2 = .ret (some lsBlock) ∧ forkFailEnv.forkRet < 0 ∧
      (executeShell 0 forkFailEnv 0).out = .exit EXIT_FAILURE ∧
      (executeShell 0 forkFailEnv 0).out ≠ .ret () := by
  have h : (executeShell 0 forkFailEnv 0).out = .exit EXIT_FAILURE := by
    rw [executeShell_of_command 0 forkFailEnv 0 lsBlock (by decide) forkFailEnv_command]
    rfl
  refine ⟨forkFailEnv_command, by decide, h, ?_⟩
  rw [h]
  intro h1
  cases h1

/-- C6 (amended): when `fork` fails for a non-empty command, `executeShell`
reports the error, releases the command and ends the shell process through
`exit(EXIT_FAILURE)`: its last calls are `fork`, `perror`, `free`, and it
does not return. -/
theorem fork_failure_outcome (timeout : Int) (env : Env) (pid : Int) (b : Buf)
    (hw : env.writeRet prompt ≠ -1) (hc : (getCommandFromInput env).2 = .ret (some b))
    (hf : env.forkRet < 0) :
    (executeShell timeout env pid).out = .exit EXIT_FAILURE ∧
      (executeShell timeout env pid).trace =
        [.write prompt] ++ (getCommandFromInput env).1 ++
          [.fork, .perror "Error in creating child process \n", .free] := by
  rw [executeShell_of_command timeout env pid b hw hc]
  unfold afterFork
  rw [if_pos hf]
  simp

/-- Witness of `fork_failure_outcome`: `fork` returns -1 for `/bin/ls`. -/
theorem fork_failure_outcome_witness :
    (executeShell 0 forkFailEnv 0).out = .exit EXIT_FAILURE ∧
      (executeShell 0 forkFailEnv 0).trace =
        [.write prompt] ++ (getCommandFromInput forkFailEnv).1 ++
          [.fork, .perror "Error in creating child process \n", .free] :=
  fork_failure_outcome 0 forkFailEnv 0 lsBlock (by decide) forkFailEnv_command (by decide)

set_option maxRecDepth 100000 in
/-- C7 (the code at the failing input): the string `"\tls"` is NUL-free and
fits the input buffer; `trim` leaves it as it is, leading tab included,
while removing the longest prefix and suffix of spaces and tabs gives
`"ls"`. -/
theorem trim_keeps_leading_tab :
    NulFree (bytes "\tls") ∧ tabLsBlock.length = INPUT_SIZE ∧
      trim tabLsBlock = .ok tabLsBlock ∧ cstr tabLsBlock = bytes "\tls" ∧
      specTrim (bytes "\tls") = bytes "ls" ∧ bytes "\tls" ≠ bytes "ls" := by
  refine ⟨by decide, by decide, by decide, by decide, by decide, by decide⟩

set_option maxRecDepth 100000 in
/-- C8 (the code at the failing input): for the line made of one tab and a
newline, `getCommandFromInput` returns the command `"\t"`, not `NULL`, and
`executeShell` calls `fork` and sets `childPid` to what `fork` returned. -/
theorem tab_line_spawns :
    (getCommandFromInput tabEnv).2 = .ret (some tabBlock) ∧ cstr tabBlock = [TAB] ∧
      Call.fork ∈ (executeShell 0 tabEnv 0).trace ∧ (executeShell 0 tabEnv 0).childPid = 7 := by
  refine ⟨by decide, by decide, by decide, by decide⟩

set_option maxRecDepth 100000 in
/-- C9 (the code at the failing input): when `read` delivers 1024 bytes
with no newline among them, the loop of `getCommandFromInput` copies all
1024 of them and the terminating NUL is written at index 1024, outside the
1024-byte `inputBuffer`. -/
theorem full_read_overflows :
    copyLine (read fullEnv INPUT_SIZE).2 0 (malloc fullEnv INPUT_SIZE) =
        .ok (1024, List.replicate 1024 97) ∧
      (getCommandFromInput fullEnv).2 = .fault (.oobWrite 1024) ∧ ¬ 1024 < INPUT_SIZE := by
  have htake : List.take INPUT_SIZE (List.replicate 1024 97) = List.replicate 1024 97 := by
    decide
  have h := getCommandFromInput_overflow fullEnv (List.replicate 1024 97) rfl (by decide)
    (by rw [htake]; intro c hc; rw [List.eq_of_mem_replicate hc]; decide)
  rw [htake] at h
  refine ⟨h.1, ?_, by decide⟩
  rw [h.2]
  rfl

/-- C10: `trim` is idempotent.  On every block holding a NUL-free string
`s` and its terminator, `trim` returns; run again on the block it leaves,
`trim` returns and changes nothing, so the string after two calls is the
string after one. -/
theorem trim_idempotent (s rest : List Nat) (h : NulFree s) :
    ∃ b1 b2, trim (s ++ NUL :: rest) = .ok b1 ∧ trim b1 = .ok b2 ∧ cstr b2 = cstr b1 := by
  obtain ⟨t, rest1, hrun, hnf, ht⟩ := trim_spec s rest h
  exact ⟨_, _, hrun, trim_fixed t rest1 hnf ht, rfl⟩

/-- Witness of `trim_idempotent`: the string `"  ls \t "` in a 1024-byte
block. -/
theorem trim_idempotent_witness :
    NulFree (bytes "  ls \t ") ∧
      ∃ b1 b2, trim (bytes "  ls \t " ++ NUL :: List.replicate 1016 170) = .ok b1 ∧
        trim b1 = .ok b2 ∧ cstr b2 = cstr b1 :=
  ⟨by decide, trim_idempotent (bytes "  ls \t ") (List.replicate 1016 170) (by decide)⟩

end PennShredder

